import Mathlib

/-!
Verification development for the Tabular Report Export Engine of the
HGAD database app (`src/streamlit-db-app/src/app.py`).

The Python source is shallowly embedded: machine floats are idealised as
exact rationals (`ℚ`), pandas cells become an inductive `Cell` type
(`null` for NaN/None, `num m e` for a numeric value `m / 10^e`, `str`
for text), and fallible operations return `Option`/`Except`.
-/

namespace HGAD

/-- A pandas cell value: NaN/None, a numeric value `m / 10 ^ e`
(decimal idealisation of a Python float/int), or a string. -/
inductive Cell where
  | null : Cell
  | num : ℤ → ℕ → Cell
  | str : String → Cell
deriving DecidableEq, Repr

/-- Pandas column dtypes relevant to the export engine. -/
inductive Dtype where
  | datetime : Dtype
  | numeric : Dtype
  | object : Dtype
deriving DecidableEq, Repr

/-- One dataframe column: its name, dtype and cells (row order). -/
structure Col where
  name : String
  dtype : Dtype
  cells : List Cell
deriving DecidableEq, Repr

/-- Rational value denoted by the decimal pair `(m, e)`, i.e. `m / 10 ^ e`. -/
def decVal (m : ℤ) (e : ℕ) : ℚ := (m : ℚ) / 10 ^ e

/-- Embeds `pd.isna`. -/
def isna : Cell → Bool
  | Cell.null => true
  | _ => false

/-! ### Digit-string rendering (embedding of Python's `str` on numbers) -/

/-- Character for a decimal digit `d < 10`. -/
def digitCh (d : ℕ) : Char := Char.ofNat (48 + d)

/-- Decimal digits of `n`, least-significant first, with explicit fuel
(any fuel above `n` suffices). -/
def digitsLsf : ℕ → ℕ → List Char
  | 0, _ => []
  | fuel + 1, n =>
    if n < 10 then [digitCh n] else digitCh (n % 10) :: digitsLsf fuel (n / 10)

/-- Decimal digits of `n`, most-significant first (Python `str(n)` for `n : ℕ`). -/
def natDigits (n : ℕ) : List Char := (digitsLsf (n + 1) n).reverse

/-- Embeds Python `str` on an integer. -/
def intStr (m : ℤ) : String :=
  String.mk (if m < 0 then '-' :: natDigits m.natAbs else natDigits m.natAbs)

/-- Strip trailing decimal zeros from the mantissa: `canonDec m e` is the
canonical decimal pair with the same value `m / 10 ^ e`. This embeds the
combined effect of float shortest-repr and `rstrip("0")`. -/
def canonDec : ℤ → ℕ → ℤ × ℕ
  | m, 0 => (m, 0)
  | m, e + 1 => if m % 10 = 0 then canonDec (m / 10) e else (m, e + 1)

/-- Fractional digits of `a % 10 ^ e`, left-padded with zeros to width `e`. -/
def fracDigits (a : ℕ) (e : ℕ) : List Char :=
  let ds := natDigits (a % 10 ^ e)
  List.replicate (e - ds.length) '0' ++ ds

/-- Decimal point string for the value `m / 10 ^ e` with `e ≥ 1`
(e.g. `decPointStr 25 1 = "2.5"`), embedding Python float repr. -/
def decPointStr (m : ℤ) (e : ℕ) : String :=
  let a := m.natAbs
  let body := natDigits (a / 10 ^ e) ++ '.' :: fracDigits a e
  String.mk (if m < 0 then '-' :: body else body)

/-- Embeds Python `str` on a cell: `str(nan) = "nan"`, floats print their
shortest decimal (with a trailing `.0` when integral), strings unchanged. -/
def pyStr : Cell → String
  | Cell.null => "nan"
  | Cell.num m e =>
      let p := canonDec m e
      if p.2 = 0 then String.mk ((intStr p.1).data ++ ['.', '0'])
      else decPointStr p.1 p.2
  | Cell.str s => s

/-! ### Embedding of Python `float(...)` parsing -/

/-- Decimal digit test. -/
def isDigitCh (c : Char) : Bool := 48 ≤ c.toNat && c.toNat ≤ 57

/-- Python whitespace test (ASCII subset relevant here). -/
def isSpaceCh (c : Char) : Bool :=
  c = ' ' || c = '\t' || c = '\n' || c = '\r' || c = '\x0b' || c = '\x0c'

/-- Strip whitespace from both ends (embedding of `str.strip()`). -/
def trimWs (cs : List Char) : List Char :=
  ((cs.dropWhile isSpaceCh).reverse.dropWhile isSpaceCh).reverse

/-- Value of a digit list, most-significant first. -/
def digitsToNat (l : List Char) : ℕ :=
  l.foldl (fun a c => a * 10 + (c.toNat - 48)) 0

/-- Parse the exponent suffix of a float literal: optional sign then digits. -/
def parseExpPart (cs : List Char) : Option ℤ :=
  let p : ℤ × List Char :=
    match cs with
    | '+' :: t => (1, t)
    | '-' :: t => (-1, t)
    | _ => (1, cs)
  let ds := p.2.takeWhile isDigitCh
  let r := p.2.dropWhile isDigitCh
  if ds = [] ∨ r ≠ [] then none else some (p.1 * (digitsToNat ds : ℤ))

/-- Combine a mantissa/fraction-length pair with a decimal exponent. -/
def applyExp (mant : ℤ) (f : ℕ) (k : ℤ) : ℤ × ℕ :=
  if (f : ℤ) ≤ k then (mant * 10 ^ (k - f).toNat, 0) else (mant, (f - k).toNat)

/-- Parse a float literal from a character list (already stripped):
optional sign, digits with optional fraction, optional exponent.
Returns the decimal pair `(m, e)` with value `m / 10 ^ e`. -/
def parseFloatL (cs : List Char) : Option (ℤ × ℕ) :=
  let p : ℤ × List Char :=
    match cs with
    | '+' :: t => (1, t)
    | '-' :: t => (-1, t)
    | _ => (1, cs)
  let ip := p.2.takeWhile isDigitCh
  let r1 := p.2.dropWhile isDigitCh
  let q : List Char × List Char :=
    match r1 with
    | '.' :: t => (t.takeWhile isDigitCh, t.dropWhile isDigitCh)
    | _ => ([], r1)
  if ip = [] ∧ q.1 = [] then none
  else
    let mant : ℤ := p.1 * (digitsToNat (ip ++ q.1) : ℤ)
    let f : ℕ := q.1.length
    match q.2 with
    | [] => some (mant, f)
    | 'e' :: t => (parseExpPart t).map (applyExp mant f)
    | 'E' :: t => (parseExpPart t).map (applyExp mant f)
    | _ => none

/-- Embeds Python `float(s)` (finite values; `inf`/`nan` and other
non-literals yield `none`, matching the `except` path of every caller). -/
def parseFloat (s : String) : Option (ℤ × ℕ) :=
  parseFloatL (trimWs s.data)

/-! ### Number formatting (`_plain_number_no_commas`, `_format_numbers_for_display`,
`_fmt_cell`, grouped `f"{x:,.2f}"` formatting) -/

/-- Embeds `str(x).replace(",", "").strip()` from `_plain_number_no_commas`
(single-character needle, so `replace` is a filter). -/
def stripCommasWs (s : String) : List Char :=
  trimWs (s.data.filter (fun c => c ≠ ','))

/-- Embeds `_plain_number_no_commas`: render a number as a plain string
without thousands separators, trimming a trailing `.0` / `.00`; `NaN`
becomes the empty string and unparsable values fall back to `str(x)`. -/
def plain_number_no_commas (x : Cell) : String :=
  match x with
  | Cell.null => ""
  | x =>
    match parseFloatL (stripCommasWs (pyStr x)) with
    | none => pyStr x
    | some (m, e) =>
      let p := canonDec m e
      if p.2 = 0 then intStr p.1 else decPointStr p.1 p.2

/-- Round `q` to an integer count of hundredths, ties to even
(idealisation of float formatting at two decimals). -/
def round2 (q : ℚ) : ℤ :=
  let x := q * 100
  let fl := ⌊x⌋
  if x - fl < 1 / 2 then fl
  else if x - fl > 1 / 2 then fl + 1
  else if fl % 2 = 0 then fl else fl + 1

/-- Insert a thousands separator every three digits; input and output are
least-significant-first digit lists. -/
def group3 : List Char → List Char
  | a :: b :: c :: d :: rest => a :: b :: c :: ',' :: group3 (d :: rest)
  | l => l

/-- Digit string of `n` with thousands separators (Python `f"{n:,}"`). -/
def natGroupStr (n : ℕ) : List Char := (group3 (natDigits n).reverse).reverse

/-- Two-digit zero-padded rendering of `r < 100`. -/
def pad2 (r : ℕ) : List Char := if r < 10 then '0' :: natDigits r else natDigits r

/-- Embeds Python `f"{q:,.2f}"`: grouped-decimal formatting with exactly
two fractional digits. -/
def pyFormatComma2f (q : ℚ) : String :=
  let n := round2 q
  let a := n.natAbs
  let body := natGroupStr (a / 100) ++ '.' :: pad2 (a % 100)
  String.mk (if q < 0 then '-' :: body else body)

/-- Embeds `_normalize_name`: remove whitespace, tatweel and zero-width
marks from a column name. -/
def normalize_name (s : String) : String :=
  String.mk (s.data.filter (fun c =>
    ¬(isSpaceCh c = true ∨ c = '\u0640' ∨ c = '\u200c' ∨ c = '\u200d' ∨
      c = '\u200e' ∨ c = '\u200f')))

/-- Embeds Python's substring test `needle in hay`. -/
def containsSub (needle hay : String) : Bool :=
  decide (needle.data <:+: hay.data)

/-- Embeds `sval = "" if pd.isna(val) else str(val)` from the cell writers. -/
def cell_sval (v : Cell) : String := if isna v then "" else pyStr v

/-- Element-wise map under `Option`, propagating failure (a raised
exception aborts the surrounding Python loop). -/
def mapOption (f : α → Option β) : List α → Option (List β)
  | [] => some []
  | a :: t =>
    match f a, mapOption f t with
    | some b, some bs => some (b :: bs)
    | _, _ => none

/-- Embeds the numeric-dtype branch of `_format_numbers_for_display`:
`"" if pd.isna(x) else f"{float(x):,.2f}"`. `none` models the uncaught
exception `float` would raise on an unparsable string. -/
def fmtNumericCell : Cell → Option String
  | Cell.null => some ""
  | Cell.num m e => some (pyFormatComma2f (decVal m e))
  | Cell.str s => (parseFloat s).map (fun p => pyFormatComma2f (decVal p.1 p.2))

/-- Embeds `_fmt_cell` from `_format_numbers_for_display`: keep
percent-suffixed strings, group-format parsable numbers, otherwise
return the string form verbatim. -/
def fmt_cell (v : Cell) : String :=
  let s := pyStr v
  if (trimWs s.data).getLast? = some '%' then s
  else
    match parseFloatL (trimWs (s.data.filter (fun c => c ≠ ','))) with
    | some (m, e) => pyFormatComma2f (decVal m e)
    | none => s

/-- Embeds the per-column body of `_format_numbers_for_display`
(`requested` is already normalized). -/
def format_col (requested : List String) (c : Col) : Option (String × List String) :=
  let cNorm := normalize_name c.name
  if requested.contains cNorm || containsSub "شيك" cNorm then
    some (c.name, c.cells.map plain_number_no_commas)
  else if c.dtype = Dtype.numeric then
    (mapOption fmtNumericCell c.cells).map (fun l => (c.name, l))
  else some (c.name, c.cells.map fmt_cell)

/-- Embeds `_format_numbers_for_display`: format every column for PDF
display; columns listed in `no_comma_cols` (normalized) or whose
normalized name contains "شيك" render without thousands separators. -/
def format_numbers_for_display (cols : List Col) (no_comma_cols : List String) :
    Option (List (String × List String)) :=
  mapOption (format_col (no_comma_cols.map normalize_name)) cols

/-! ### Layout Engine: column-width fitting and desired widths
(`_pdf_table` lines 597–605) and banner scaling
(`_insert_wide_logo`, `_pdf_header_elements`). -/

/-- Embeds the width-fitting step of `_pdf_table`: when `avail_width` is
truthy and the desired total exceeds it, scale every width by
`avail_width / total`; otherwise return the widths unchanged. -/
def fit_col_widths (ws : List ℚ) (avail : Option ℚ) : List ℚ :=
  match avail with
  | none => ws
  | some a =>
      if a ≠ 0 ∧ a < ws.sum then ws.map (fun w => w * (a / ws.sum)) else ws

/-- Longest `str(v)` length over a column's cells (pandas
`df[c].astype(str).map(len).max()`; `0` for an empty column where pandas
would yield NaN). -/
def cellsMaxLen (cells : List Cell) : ℕ :=
  cells.foldr (fun c a => max (pyStr c).length a) 0

/-- Embeds the desired-width computation of `_pdf_table` line 599–600:
`min(max(len(name), max cell length) * 6.4, max_col_width)`. -/
def col_desired_width (maxw : ℚ) (name : String) (cells : List Cell) : ℚ :=
  min ((max name.length (cellsMaxLen cells) : ℚ) * (32 / 5)) maxw

/-- Modelled from the spec: the desired-width rule as §4.5 words it for
hyperlink columns — the fixed "فتح الرابط" label length replaces the cell
content length. Stated only for comparison with `col_desired_width`. -/
def col_desired_width_spec_label (maxw : ℚ) (name : String) (cells : List Cell) : ℚ :=
  if containsSub "رابط" name then
    min ((max name.length (String.length "فتح الرابط") : ℚ) * (32 / 5)) maxw
  else col_desired_width maxw name cells

/-- Column widths produced by `_pdf_table` (lines 597–605). -/
def pdf_table_col_widths (cols : List Col) (maxw : ℚ) (avail : Option ℚ) : List ℚ :=
  fit_col_widths (cols.map (fun c => col_desired_width maxw c.name c.cells)) avail

/-- Embeds `_insert_wide_logo`'s scaling: uniform scale
`max(0.1, total_px / w)` applied to both axes; displayed size is the
intrinsic size times the scale. -/
def insert_wide_logo_dims (imgW imgH totalPx : ℚ) : ℚ × ℚ :=
  let w := if imgW ≤ 0 then 1000 else imgW
  let s := max (1 / 10) (totalPx / w)
  (imgW * s, imgH * s)

/-- Embeds the banner sizing of `_pdf_header_elements`: draw width is the
full available width; draw height is `max(22, avail * (h/w) * 0.55)`. -/
def pdf_banner_dims (imgW imgH availW : ℚ) : ℚ × ℚ :=
  let ratio := if imgW ≠ 0 then imgH / imgW else 1 / 5
  (availW, max 22 (availW * ratio * (11 / 20)))

/-- Millimetres to points (ReportLab: `72 / 25.4`). -/
def mmPt : ℚ := 360 / 127

/-- Landscape A4 page width in points. -/
def a4LandscapeW : ℚ := 297 * mmPt

/-- Available width used by `make_pdf_bytes` / `_pdf_header_elements`
(page width minus the 14pt left and right margins). -/
def pdfAvailW : ℚ := a4LandscapeW - 14 - 14

/-! ### Cell writers (`_write_excel_table` and `_pdf_table`) -/

/-- Embeds `sval.startswith(("http://", "https://"))`. -/
def isHttpUrl (s : String) : Bool :=
  "http://".data.isPrefixOf s.data || "https://".data.isPrefixOf s.data

/-- Embeds `looks_arabic`: presence of a character in the Arabic block. -/
def looks_arabic (s : String) : Bool :=
  s.data.any (fun c => decide (0x600 ≤ c.toNat ∧ c.toNat ≤ 0x6FF))

/-- One written spreadsheet cell, as `_write_excel_table` produces it. -/
inductive XlCell where
  | url : String → String → XlCell
  | datetime : String → XlCell
  | number : ℚ → XlCell
  | blank : XlCell
  | text : String → XlCell
deriving DecidableEq, Repr

/-- Embeds the per-cell branch of `_write_excel_table` (lines 338–352):
URL-looking values, or non-empty values in a column whose name contains
"رابط", become clickable cells labeled "فتح الرابط"; otherwise the cell
is written by dtype. -/
def write_excel_cell (dtype : Dtype) (colname : String) (v : Cell) : XlCell :=
  let sval := cell_sval v
  if isHttpUrl sval || (containsSub "رابط" colname && decide (sval ≠ "")) then
    XlCell.url sval "فتح الرابط"
  else
    match dtype with
    | Dtype.datetime => if isna v then XlCell.blank else XlCell.datetime sval
    | Dtype.numeric =>
        match v with
        | Cell.num m e => XlCell.number (decVal m e)
        | _ => XlCell.blank
    | Dtype.object => XlCell.text sval

/-- One table cell of the paginated-document renderer. -/
inductive PdfCellM where
  | link : String → String → PdfCellM
  | par : String → Bool → PdfCellM
deriving DecidableEq, Repr

/-- Embeds the per-cell branch of `_pdf_table` (lines 587–594), with the
text shaper passed in as `sh`: link cells carry the shaped fixed label;
other cells are paragraphs, shaped and right-aligned when Arabic. -/
def pdf_cell (sh : String → String) (colname : String) (v : Cell) : PdfCellM :=
  let sval := cell_sval v
  if isHttpUrl sval || (containsSub "رابط" colname && decide (sval ≠ "")) then
    PdfCellM.link sval (sh "فتح الرابط")
  else
    let isAr := looks_arabic sval
    PdfCellM.par (if isAr then sh sval else sval) isAr

/-! ### Excel engine selection and workbook assembly
(`_pick_excel_engine`, `_auto_excel_sheet`, `make_excel_bytes`) -/

/-- Which spreadsheet-writer packages the Python runtime can import. -/
structure PyEnv where
  hasXlsxwriter : Bool
  hasOpenpyxl : Bool
deriving DecidableEq, Repr

/-- Embeds `_pick_excel_engine`: prefer xlsxwriter, then openpyxl,
else `None`. -/
def pick_excel_engine (env : PyEnv) : Option String :=
  if env.hasXlsxwriter then some "xlsxwriter"
  else if env.hasOpenpyxl then some "openpyxl"
  else none

/-- A written table: header names plus typed cell writes row by row. -/
structure XlTable where
  headers : List String
  rows : List (List XlCell)
deriving DecidableEq, Repr

/-- Number of data rows of a column list (`len(df)`). -/
def numRows (cols : List Col) : ℕ :=
  match cols with
  | [] => 0
  | c :: _ => c.cells.length

/-- Embeds `_write_excel_table`: header row then one typed write per cell. -/
def write_excel_table (cols : List Col) : XlTable :=
  { headers := cols.map (fun c => c.name)
    rows := (List.range (numRows cols)).map (fun i =>
      cols.map (fun c => write_excel_cell c.dtype c.name (c.cells.getD i Cell.null))) }

/-- Sheet content produced by `_auto_excel_sheet`: the styled xlsxwriter
layout, or the plain `to_excel` fallback for other engines. -/
inductive SheetContent where
  | styled : Bool → String → XlTable → SheetContent
  | plainSheet : List String → List (List Cell) → SheetContent
deriving DecidableEq, Repr

/-- Embeds `_auto_excel_sheet`. -/
def auto_excel_sheet (engine : String) (cols : List Col) (title : String)
    (putLogo : Bool) : SheetContent :=
  if engine = "xlsxwriter" then
    SheetContent.styled putLogo title (write_excel_table cols)
  else
    SheetContent.plainSheet (cols.map (fun c => c.name))
      ((List.range (numRows cols)).map (fun i =>
        cols.map (fun c => c.cells.getD i Cell.null)))

/-- Embeds `make_excel_bytes`: `None` when no writer engine is available,
otherwise the rendered sheet. -/
def make_excel_bytes (env : PyEnv) (cols : List Col) (title : String)
    (putLogo : Bool) : Option SheetContent :=
  match pick_excel_engine env with
  | none => none
  | some engine => some (auto_excel_sheet engine cols title putLogo)

/-! ### Text shaper (`shape_arabic`) -/

/-- Embeds `shape_arabic`: run the external reshaper then the bidi
reordering; on any failure return the original string. The two external
library calls are parameters returning `Except`. -/
def shape_arabic (reshape display : String → Except String String) (s : String) : String :=
  match (reshape s).bind display with
  | Except.ok r => r
  | Except.error _ => s

/-! ### Flat delimited export (`make_csv_utf8`) -/

/-- Does a CSV field need quoting (QUOTE_MINIMAL)? -/
def needsQuote (s : List Char) : Bool :=
  s.any (fun c => c = ',' || c = '"' || c = '\n' || c = '\r')

/-- Double every quote character (CSV escaping). -/
def escQ : List Char → List Char
  | [] => []
  | c :: t => if c = '"' then '"' :: '"' :: escQ t else c :: escQ t

/-- Render one CSV field with minimal quoting. -/
def renderField (s : List Char) : List Char :=
  if needsQuote s then '"' :: (escQ s ++ ['"']) else s

/-- Render one CSV record (comma separated). -/
def renderRow : List (List Char) → List Char
  | [] => []
  | [f] => renderField f
  | f :: t => renderField f ++ ',' :: renderRow t

/-- Render CSV records, each terminated by a newline. -/
def renderLines : List (List (List Char)) → List Char
  | [] => []
  | r :: t => renderRow r ++ '\n' :: renderLines t

/-- String written to CSV for one cell (`na_rep=""`). -/
def csvCellStr : Cell → String
  | Cell.null => ""
  | x => pyStr x

/-- Rows of the dataframe as written by `to_csv` (header row first). -/
def tableStrings (cols : List Col) : List (List String) :=
  cols.map (fun c => c.name) ::
    (List.range (numRows cols)).map (fun i =>
      cols.map (fun c => csvCellStr (c.cells.getD i Cell.null)))

/-- Embeds `make_csv_utf8`: `df.to_csv(index=False)` encoded as UTF-8
with a leading byte-order mark. -/
def make_csv_utf8 (cols : List Col) : String :=
  String.mk ('\uFEFF' :: renderLines ((tableStrings cols).map (fun r => r.map String.data)))

/-- Parse one quoted CSV field body (after the opening quote): a doubled
quote is a literal quote, a single quote closes the field. -/
def parseQuoted : List Char → Option (List Char × List Char)
  | [] => none
  | c :: t =>
    if c = '"' then
      match t with
      | '"' :: t2 => (parseQuoted t2).map (fun p => ('"' :: p.1, p.2))
      | _ => some ([], t)
    else (parseQuoted t).map (fun p => (c :: p.1, p.2))

/-- Field separator / record terminator test. -/
def isSep (c : Char) : Bool := c = ',' || c = '\n'

/-- Parse one CSV field: quoted if it starts with a quote, otherwise
everything up to the next separator. -/
def parseField : List Char → Option (List Char × List Char)
  | [] => some ([], [])
  | c :: t =>
    if c = '"' then parseQuoted t
    else some ((c :: t).takeWhile (fun x => !isSep x), (c :: t).dropWhile (fun x => !isSep x))

/-- Parse one CSV record (fuelled recursion over the fields). -/
def parseRowF : ℕ → List Char → Option (List (List Char) × List Char)
  | 0, _ => none
  | fuel + 1, cs =>
    match parseField cs with
    | none => none
    | some (f, rest) =>
      match rest with
      | ',' :: t => (parseRowF fuel t).map (fun p => (f :: p.1, p.2))
      | _ => some ([f], rest)

/-- Parse newline-terminated CSV records (fuelled recursion over records). -/
def parseLinesF : ℕ → List Char → Option (List (List (List Char)))
  | _, [] => some []
  | 0, _ :: _ => none
  | fuel + 1, c :: t =>
    match parseRowF ((c :: t).length + 1) (c :: t) with
    | none => none
    | some (r, rest) =>
      match rest with
      | '\n' :: t2 => (parseLinesF fuel t2).map (fun x => r :: x)
      | _ => none

/-- Parse the flat delimited export back: strip the byte-order mark, parse
the records, and split off the header row. -/
def csvParse (s : String) : Option (List String × List (List String)) :=
  let cs := match s.data with
    | '\uFEFF' :: t => t
    | t => t
  (parseLinesF (cs.length + 1) cs).bind (fun ls =>
    match ls.map (fun r => r.map String.mk) with
    | [] => none
    | h :: t => some (h, t))

/-! ## Shared lemmas -/

theorem data_mk (l : List Char) : (String.mk l).data = l := rfl

theorem mk_data (s : String) : String.mk s.data = s := rfl

theorem mem_digitsLsf : ∀ (fuel n : ℕ), ∀ c ∈ digitsLsf fuel n, ∃ d, d < 10 ∧ c = digitCh d := by
  intro fuel
  induction fuel with
  | zero => intro n c hc; simp [digitsLsf] at hc
  | succ f ih =>
    intro n c hc
    simp only [digitsLsf] at hc
    by_cases h : n < 10
    · rw [if_pos h] at hc
      simp at hc
      exact ⟨n, h, hc⟩
    · rw [if_neg h] at hc
      rcases List.mem_cons.mp hc with rfl | hc2
      · exact ⟨n % 10, Nat.mod_lt _ (by omega), rfl⟩
      · exact ih (n / 10) c hc2

theorem digitsLsf_ne_nil (fuel n : ℕ) (h : 0 < fuel) : digitsLsf fuel n ≠ [] := by
  cases fuel with
  | zero => omega
  | succ f =>
    simp only [digitsLsf]
    by_cases hn : n < 10
    · rw [if_pos hn]; simp
    · rw [if_neg hn]; simp

theorem digitsLsf_head (fuel n : ℕ) (h : 0 < fuel) :
    (digitsLsf fuel n).head? = some (digitCh (n % 10)) := by
  cases fuel with
  | zero => omega
  | succ f =>
    simp only [digitsLsf]
    by_cases hn : n < 10
    · rw [if_pos hn]; simp [Nat.mod_eq_of_lt hn]
    · rw [if_neg hn]; rfl

theorem mem_natDigits (n : ℕ) : ∀ c ∈ natDigits n, ∃ d, d < 10 ∧ c = digitCh d := by
  intro c hc
  exact mem_digitsLsf (n + 1) n c (List.mem_reverse.mp hc)

theorem natDigits_ne_nil (n : ℕ) : natDigits n ≠ [] := by
  unfold natDigits
  simp only [ne_eq, List.reverse_eq_nil_iff]
  exact digitsLsf_ne_nil (n + 1) n (Nat.succ_pos n)

theorem natDigits_getLast (n : ℕ) : (natDigits n).getLast? = some (digitCh (n % 10)) := by
  unfold natDigits
  rw [List.getLast?_reverse]
  exact digitsLsf_head (n + 1) n (Nat.succ_pos n)

theorem digitCh_facts (d : ℕ) (h : d < 10) :
    digitCh d ≠ ',' ∧ digitCh d ≠ '.' ∧ (d ≠ 0 → digitCh d ≠ '0') := by
  interval_cases d <;>
    refine ⟨by decide, by decide, fun h0 => ?_⟩ <;>
    first
      | exact absurd rfl h0
      | decide

theorem intStr_chars (m : ℤ) : ∀ c ∈ (intStr m).data, c = '-' ∨ ∃ d, d < 10 ∧ c = digitCh d := by
  intro c hc
  simp only [intStr, data_mk] at hc
  by_cases h : m < 0
  · rw [if_pos h] at hc
    rcases List.mem_cons.mp hc with rfl | hc2
    · exact Or.inl rfl
    · exact Or.inr (mem_natDigits _ c hc2)
  · rw [if_neg h] at hc
    exact Or.inr (mem_natDigits _ c hc)

theorem intStr_no_comma (m : ℤ) : ',' ∉ (intStr m).data := by
  intro hc
  rcases intStr_chars m ',' hc with h | ⟨d, hd, h⟩
  · exact absurd h (by decide)
  · exact absurd h.symm (digitCh_facts d hd).1

theorem intStr_no_dot (m : ℤ) : '.' ∉ (intStr m).data := by
  intro hc
  rcases intStr_chars m '.' hc with h | ⟨d, hd, h⟩
  · exact absurd h (by decide)
  · exact absurd h.symm (digitCh_facts d hd).2.1

theorem getLast?_cons_of (c x : Char) (l : List Char) (h : l.getLast? = some x) :
    (c :: l).getLast? = some x := by
  have he : (c :: l) = [c] ++ l := rfl
  rw [he, List.getLast?_append, h]
  rfl

theorem fracDigits_chars (a e : ℕ) : ∀ c ∈ fracDigits a e, ∃ d, d < 10 ∧ c = digitCh d := by
  intro c hc
  unfold fracDigits at hc
  rcases List.mem_append.mp hc with h | h
  · rw [List.eq_of_mem_replicate h]
    exact ⟨0, by omega, by decide⟩
  · exact mem_natDigits _ c h

theorem fracDigits_getLast (a e : ℕ) (he : 0 < e) :
    (fracDigits a e).getLast? = some (digitCh (a % 10)) := by
  unfold fracDigits
  rw [List.getLast?_append, natDigits_getLast]
  rw [Nat.mod_mod_of_dvd a (dvd_pow_self 10 (Nat.pos_iff_ne_zero.mp he))]
  rfl

theorem decPointStr_chars (m : ℤ) (e : ℕ) :
    ∀ c ∈ (decPointStr m e).data, c = '-' ∨ c = '.' ∨ ∃ d, d < 10 ∧ c = digitCh d := by
  intro c hc
  simp only [decPointStr, data_mk] at hc
  have hbody : ∀ c₀ ∈ natDigits (m.natAbs / 10 ^ e) ++ '.' :: fracDigits m.natAbs e,
      c₀ = '-' ∨ c₀ = '.' ∨ ∃ d, d < 10 ∧ c₀ = digitCh d := by
    intro c₀ hc₀
    rcases List.mem_append.mp hc₀ with h | h
    · exact Or.inr (Or.inr (mem_natDigits _ c₀ h))
    · rcases List.mem_cons.mp h with rfl | h2
      · exact Or.inr (Or.inl rfl)
      · exact Or.inr (Or.inr (fracDigits_chars _ _ c₀ h2))
  by_cases h : m < 0
  · rw [if_pos h] at hc
    rcases List.mem_cons.mp hc with rfl | hc2
    · exact Or.inl rfl
    · exact hbody c hc2
  · rw [if_neg h] at hc
    exact hbody c hc

theorem decPointStr_no_comma (m : ℤ) (e : ℕ) : ',' ∉ (decPointStr m e).data := by
  intro hc
  rcases decPointStr_chars m e ',' hc with h | h | ⟨d, hd, h⟩
  · exact absurd h (by decide)
  · exact absurd h (by decide)
  · exact absurd h.symm (digitCh_facts d hd).1

theorem decPointStr_getLast (m : ℤ) (e : ℕ) (he : 0 < e) :
    (decPointStr m e).data.getLast? = some (digitCh (m.natAbs % 10)) := by
  simp only [decPointStr, data_mk]
  have hbody : (natDigits (m.natAbs / 10 ^ e) ++ '.' :: fracDigits m.natAbs e).getLast? =
      some (digitCh (m.natAbs % 10)) := by
    rw [List.getLast?_append, getLast?_cons_of '.' (digitCh (m.natAbs % 10)) _
      (fracDigits_getLast m.natAbs e he)]
    rfl
  by_cases h : m < 0
  · rw [if_pos h]
    exact getLast?_cons_of '-' _ _ hbody
  · rw [if_neg h]
    exact hbody

theorem pyStr_num_no_comma (m : ℤ) (e : ℕ) : ',' ∉ (pyStr (Cell.num m e)).data := by
  simp only [pyStr]
  by_cases h : (canonDec m e).2 = 0
  · rw [if_pos h]
    simp only [data_mk]
    intro hc
    rcases List.mem_append.mp hc with h1 | h1
    · exact intStr_no_comma _ h1
    · simp at h1
  · rw [if_neg h]
    exact decPointStr_no_comma _ _

theorem canonDec_val (e : ℕ) : ∀ m : ℤ, decVal (canonDec m e).1 (canonDec m e).2 = decVal m e := by
  induction e with
  | zero => intro m; rfl
  | succ e ih =>
    intro m
    simp only [canonDec]
    by_cases h : m % 10 = 0
    · rw [if_pos h, ih (m / 10)]
      have hd : (10:ℤ) ∣ m := Int.dvd_of_emod_eq_zero h
      obtain ⟨k, rfl⟩ := hd
      rw [Int.mul_ediv_cancel_left _ (by norm_num)]
      unfold decVal
      push_cast
      rw [pow_succ]
      field_simp
      ring
    · rw [if_neg h]

theorem canonDec_snd_zero_iff (e : ℕ) : ∀ m : ℤ, (canonDec m e).2 = 0 ↔ (10:ℤ) ^ e ∣ m := by
  induction e with
  | zero => intro m; simp [canonDec]
  | succ e ih =>
    intro m
    simp only [canonDec]
    by_cases h : m % 10 = 0
    · rw [if_pos h]
      have hd : (10:ℤ) ∣ m := Int.dvd_of_emod_eq_zero h
      obtain ⟨k, rfl⟩ := hd
      rw [Int.mul_ediv_cancel_left _ (by norm_num), ih k]
      constructor
      · rintro ⟨c, rfl⟩
        exact ⟨c, by ring⟩
      · rintro ⟨c, hc⟩
        refine ⟨c, ?_⟩
        have h2 : (10:ℤ) * k = 10 * (10 ^ e * c) := by
          rw [hc]; ring
        exact mul_left_cancel₀ (by norm_num) h2
    · rw [if_neg h]
      constructor
      · intro h1; simp at h1
      · intro hdvd
        exact absurd (Int.emod_eq_zero_of_dvd
          (dvd_trans (dvd_pow_self (10:ℤ) (Nat.succ_ne_zero e)) hdvd)) h

theorem canonDec_fst_not_dvd (e : ℕ) : ∀ m : ℤ, (canonDec m e).2 ≠ 0 →
    ¬ (10:ℤ) ∣ (canonDec m e).1 := by
  induction e with
  | zero => intro m h; simp [canonDec] at h
  | succ e ih =>
    intro m h
    by_cases hm : m % 10 = 0
    · simp only [canonDec, if_pos hm] at h ⊢
      exact ih _ h
    · simp only [canonDec, if_neg hm]
      intro hd
      exact hm (Int.emod_eq_zero_of_dvd hd)

theorem canonDec_fst_int (e : ℕ) : ∀ m : ℤ, (10:ℤ) ^ e ∣ m → (canonDec m e).1 = m / 10 ^ e := by
  induction e with
  | zero => intro m h; simp [canonDec]
  | succ e ih =>
    intro m h
    obtain ⟨k, rfl⟩ := h
    simp only [canonDec]
    have h10 : (10:ℤ) ^ (e + 1) * k % 10 = 0 := by
      apply Int.emod_eq_zero_of_dvd
      exact Dvd.dvd.mul_right (dvd_pow_self (10:ℤ) (Nat.succ_ne_zero e)) k
    rw [if_pos h10]
    have hdiv : (10:ℤ) ^ (e + 1) * k / 10 = 10 ^ e * k := by
      rw [pow_succ, mul_comm ((10:ℤ) ^ e) 10, mul_assoc]
      exact Int.mul_ediv_cancel_left _ (by norm_num)
    rw [hdiv, ih _ ⟨k, rfl⟩]
    rw [Int.mul_ediv_cancel_left _ (pow_ne_zero e (by norm_num : (10:ℤ) ≠ 0))]
    rw [Int.mul_ediv_cancel_left _ (pow_ne_zero (e + 1) (by norm_num : (10:ℤ) ≠ 0))]

theorem sum_map_mul (l : List ℚ) (c : ℚ) : (l.map (fun w => w * c)).sum = l.sum * c := by
  induction l with
  | nil => simp
  | cons a t ih => simp [ih, add_mul]

theorem fit_col_widths_scaled (ws : List ℚ) (a : ℚ) (ha : 0 < a) (hlt : a < ws.sum) :
    fit_col_widths ws (some a) = ws.map (fun w => w * (a / ws.sum)) := by
  simp only [fit_col_widths]
  rw [if_pos ⟨ne_of_gt ha, hlt⟩]

theorem fit_col_widths_sum (ws : List ℚ) (a : ℚ) (ha : 0 < a) (hlt : a < ws.sum) :
    (fit_col_widths ws (some a)).sum = a := by
  rw [fit_col_widths_scaled ws a ha hlt, sum_map_mul]
  have hs : ws.sum ≠ 0 := ne_of_gt (lt_trans ha hlt)
  field_simp

/-! ## C1 -/

/-- C1: the column-width fitting of `_pdf_table` returns the desired widths
unchanged when their sum is at most the (positive) available width, and
otherwise multiplies every width by the single factor `a / sum`, so the
fitted widths sum exactly to the available width and pairwise proportions
are preserved; for 20 columns of desired width 100 and available width
1000 every fitted width is 50. -/
theorem fit_col_widths_spec (ws : List ℚ) (a : ℚ) (ha : 0 < a) :
    (ws.sum ≤ a → fit_col_widths ws (some a) = ws) ∧
    (a < ws.sum →
      fit_col_widths ws (some a) = ws.map (fun w => w * (a / ws.sum)) ∧
      (fit_col_widths ws (some a)).sum = a ∧
      ∀ i j (hi : i < ws.length) (hj : j < ws.length)
        (hi' : i < (fit_col_widths ws (some a)).length)
        (hj' : j < (fit_col_widths ws (some a)).length),
        (fit_col_widths ws (some a)).get ⟨i, hi'⟩ * ws.get ⟨j, hj⟩ =
          (fit_col_widths ws (some a)).get ⟨j, hj'⟩ * ws.get ⟨i, hi⟩) ∧
    fit_col_widths (List.replicate 20 100) (some 1000) = List.replicate 20 50 := by
  refine ⟨fun hle => ?_, fun hlt => ⟨fit_col_widths_scaled ws a ha hlt,
    fit_col_widths_sum ws a ha hlt, ?_⟩, ?_⟩
  · simp only [fit_col_widths]
    rw [if_neg]
    rintro ⟨-, h⟩
    exact absurd hle (not_le.mpr h)
  · intro i j hi hj hi' hj'
    have hmap := fit_col_widths_scaled ws a ha hlt
    have hgi : (fit_col_widths ws (some a)).get ⟨i, hi'⟩ = ws.get ⟨i, hi⟩ * (a / ws.sum) := by
      have := List.get_of_eq hmap ⟨i, hi'⟩
      rw [this, List.get_map]
    have hgj : (fit_col_widths ws (some a)).get ⟨j, hj'⟩ = ws.get ⟨j, hj⟩ * (a / ws.sum) := by
      have := List.get_of_eq hmap ⟨j, hj'⟩
      rw [this, List.get_map]
    rw [hgi, hgj]; ring
  · norm_num [fit_col_widths, List.replicate, List.map]

/-- C1 witness: the 20-column scenario, instantiating `fit_col_widths_spec`
at available width 1000. -/
theorem fit_col_widths_spec_witness :
    fit_col_widths (List.replicate 20 100) (some 1000) = List.replicate 20 50 :=
  (fit_col_widths_spec (List.replicate 20 100) 1000 (by norm_num)).2.2

/-! ## C2 -/

/-- C2 counterexample: no fixed positive minimum floor bounds every fitted
width from below — the code applies no floor after scaling, so for any
candidate floor `m` the two-column table with desired widths `[1, 1/m]`
and available width 1 is fitted below `m`. -/
theorem fit_no_fixed_floor :
    ¬ ∃ m : ℚ, 0 < m ∧ ∀ ws : List ℚ, ∀ a : ℚ, 0 < a → a < ws.sum →
      (∀ w ∈ ws, 0 < w) → ∀ w' ∈ fit_col_widths ws (some a), m ≤ w' := by
  rintro ⟨m, hm, H⟩
  have hminv : (0:ℚ) < 1 / m := by positivity
  have hsum : ([1, 1 / m] : List ℚ).sum = 1 + 1 / m := by simp
  have hlt : (1:ℚ) < ([1, 1 / m] : List ℚ).sum := by
    rw [hsum]; linarith
  have hmap := fit_col_widths_scaled [1, 1 / m] 1 one_pos hlt
  have hmem : (1 : ℚ) * (1 / ([1, 1 / m] : List ℚ).sum) ∈
      fit_col_widths [1, 1 / m] (some 1) := by
    rw [hmap]
    exact List.mem_map.mpr ⟨1, by simp, rfl⟩
  have hbound := H [1, 1 / m] 1 one_pos hlt
    (by
      intro w hw
      rcases List.mem_pair.mp hw with rfl | rfl
      · exact one_pos
      · exact hminv) _ hmem
  rw [hsum] at hbound
  have hd : (0:ℚ) < 1 + 1 / m := by linarith
  have hval : (1 : ℚ) * (1 / (1 + 1 / m)) = m / (m + 1) := by
    rw [one_mul]
    rw [div_eq_div_iff (ne_of_gt hd) (by positivity)]
    field_simp
  rw [hval] at hbound
  have : m / (m + 1) < m := by
    rw [div_lt_iff (by linarith)]
    nlinarith
  linarith

/-- C2 (amended): when the desired widths exceed the available width the
fitted widths are each strictly positive for positive desired widths
(never zero), sum exactly to the available width (hence at most it), and
preserve the relative ordering of magnitudes; however no fixed minimum
floor is applied after scaling (`fit_no_fixed_floor`). -/
theorem fit_scaled_props (ws : List ℚ) (a : ℚ) (ha : 0 < a) (hlt : a < ws.sum)
    (hpos : ∀ w ∈ ws, 0 < w) :
    (∀ w' ∈ fit_col_widths ws (some a), 0 < w') ∧
    (fit_col_widths ws (some a)).sum = a ∧
    ∀ i j (hi : i < ws.length) (hj : j < ws.length)
      (hi' : i < (fit_col_widths ws (some a)).length)
      (hj' : j < (fit_col_widths ws (some a)).length),
      ws.get ⟨j, hj⟩ < ws.get ⟨i, hi⟩ →
      (fit_col_widths ws (some a)).get ⟨j, hj'⟩ ≤ (fit_col_widths ws (some a)).get ⟨i, hi'⟩ := by
  have hmap := fit_col_widths_scaled ws a ha hlt
  have hsumpos : (0:ℚ) < ws.sum := lt_trans ha hlt
  have hfac : (0:ℚ) < a / ws.sum := div_pos ha hsumpos
  refine ⟨?_, fit_col_widths_sum ws a ha hlt, ?_⟩
  · intro w' hw'
    rw [hmap] at hw'
    rcases List.mem_map.mp hw' with ⟨w, hw, rfl⟩
    exact mul_pos (hpos w hw) hfac
  · intro i j hi hj hi' hj' hij
    have hgi : (fit_col_widths ws (some a)).get ⟨i, hi'⟩ = ws.get ⟨i, hi⟩ * (a / ws.sum) := by
      have := List.get_of_eq hmap ⟨i, hi'⟩
      rw [this, List.get_map]
    have hgj : (fit_col_widths ws (some a)).get ⟨j, hj'⟩ = ws.get ⟨j, hj⟩ * (a / ws.sum) := by
      have := List.get_of_eq hmap ⟨j, hj'⟩
      rw [this, List.get_map]
    rw [hgi, hgj]
    exact mul_le_mul_of_nonneg_right (le_of_lt hij) (le_of_lt hfac)

/-- C2 witness: the amended properties instantiated on desired widths
`[100, 50]` and available width 75. -/
theorem fit_scaled_props_witness :
    (fit_col_widths [100, 50] (some 75)).sum = 75 :=
  (fit_scaled_props [100, 50] 75 (by norm_num) (by norm_num)
    (by
      intro w hw
      rcases List.mem_pair.mp hw with rfl | rfl <;> norm_num)).2.1

/-! ## C3 -/

/-- C3 counterexample: the paginated-document banner height is
`max(22, avail * (h/w) * 0.55)`, not `h * (avail / w)` — at the default
intrinsic size 600×120 and the A4-landscape available width the two
differ, so the PDF path does not preserve the aspect ratio. -/
theorem pdf_banner_height_not_aspect :
    (pdf_banner_dims 600 120 pdfAvailW).2 ≠ 120 * (pdfAvailW / 600) := by
  norm_num [pdf_banner_dims, pdfAvailW, a4LandscapeW, mmPt, max_def]

/-- C3 (amended): the spreadsheet path scales both axes by the same factor
(so aspect ratio is preserved) and hits the target width exactly whenever
the implied factor is at least the 0.1 clamp; the paginated-document path
sets the display width to the full available width but computes its height
as `max(22, avail * (h/w) * 0.55)`, which is not the aspect-preserving
height in general. -/
theorem banner_scaling_spec (wpx hpx totalPx availW : ℚ) (hw : 0 < wpx) :
    (insert_wide_logo_dims wpx hpx totalPx).2 * wpx =
      (insert_wide_logo_dims wpx hpx totalPx).1 * hpx ∧
    ((1 : ℚ) / 10 ≤ totalPx / wpx → (insert_wide_logo_dims wpx hpx totalPx).1 = totalPx) ∧
    (pdf_banner_dims wpx hpx availW).1 = availW ∧
    (pdf_banner_dims wpx hpx availW).2 = max 22 (availW * (hpx / wpx) * (11 / 20)) := by
  have hne : ¬ wpx ≤ 0 := not_le.mpr hw
  refine ⟨?_, ?_, ?_, ?_⟩
  · simp only [insert_wide_logo_dims, if_neg hne]
    ring
  · intro hge
    simp only [insert_wide_logo_dims, if_neg hne]
    rw [max_eq_right hge, mul_div_cancel₀ totalPx (ne_of_gt hw)]
  · rfl
  · simp only [pdf_banner_dims, if_pos (ne_of_gt hw)]

/-- C3 witness: the spreadsheet-path aspect equation at intrinsic size
600×120 and target width 1000. -/
theorem banner_scaling_spec_witness :
    (insert_wide_logo_dims 600 120 1000).2 * 600 =
      (insert_wide_logo_dims 600 120 1000).1 * 120 :=
  (banner_scaling_spec 600 120 1000 pdfAvailW (by norm_num)).1

/-! ## C7 -/

/-- C7: the spreadsheet export returns `none` exactly when neither writer
engine can be imported — the capability-unavailable condition — and the
flat delimited export always yields a non-empty artifact. -/
theorem make_excel_bytes_none_iff (env : PyEnv) (cols : List Col) (title : String)
    (putLogo : Bool) :
    (make_excel_bytes env cols title putLogo = none ↔
      env.hasXlsxwriter = false ∧ env.hasOpenpyxl = false) ∧
    (make_csv_utf8 cols).data ≠ [] := by
  constructor
  · rcases env with ⟨x, o⟩
    cases x <;> cases o <;> simp [make_excel_bytes, pick_excel_engine]
  · simp [make_csv_utf8]

/-! ## C8 -/

/-- C8: the text shaper is a total function; when the external
reshape/bidi pipeline fails on an input it returns that original string
unchanged, and when the pipeline succeeds it returns the shaped result. -/
theorem shape_arabic_spec (reshape display : String → Except String String) (s : String) :
    (∀ e, (reshape s).bind display = Except.error e → shape_arabic reshape display s = s) ∧
    (∀ r, (reshape s).bind display = Except.ok r → shape_arabic reshape display s = r) := by
  constructor <;> intro v h <;> simp [shape_arabic, h]

/-- C8 witness: a pipeline that fails on "مرحبا" leaves the string
unchanged. -/
theorem shape_arabic_spec_witness :
    shape_arabic (fun _ => Except.error "boom") (fun t => Except.ok t) "مرحبا" = "مرحبا" :=
  (shape_arabic_spec (fun _ => Except.error "boom") (fun t => Except.ok t) "مرحبا").1 "boom" rfl

/-! ## C4 -/

/-- C4 counterexample: a well-formed URL in a column whose name does not
match the hyperlink pattern is still rendered as a clickable cell — the
code uses a disjunction of the two conditions, not a conjunction, so a
cell meeting only the URL condition is not written as plain text. -/
theorem url_in_plain_column_renders_link :
    write_excel_cell Dtype.object "العنوان" (Cell.str "https://example.com") =
      XlCell.url "https://example.com" "فتح الرابط" ∧
    containsSub "رابط" "العنوان" = false ∧
    isHttpUrl "https://example.com" = true := by
  refine ⟨by decide, by decide, by decide⟩

/-- C4 (amended): in both renderers a cell is rendered as a clickable
cell labeled with the fixed caption "فتح الرابط" exactly when its string
value starts with `http://` or `https://`, or the column name contains
"رابط" and the value is non-empty; otherwise it is written by its dtype
(plain text for object columns). -/
theorem link_cell_iff (sh : String → String) (dtype : Dtype) (colname : String) (v : Cell) :
    (write_excel_cell dtype colname v = XlCell.url (cell_sval v) "فتح الرابط" ↔
      isHttpUrl (cell_sval v) = true ∨
        (containsSub "رابط" colname = true ∧ cell_sval v ≠ "")) ∧
    (pdf_cell sh colname v = PdfCellM.link (cell_sval v) (sh "فتح الرابط") ↔
      isHttpUrl (cell_sval v) = true ∨
        (containsSub "رابط" colname = true ∧ cell_sval v ≠ "")) := by
  have hcond : (isHttpUrl (cell_sval v) ||
        (containsSub "رابط" colname && decide (cell_sval v ≠ ""))) = true ↔
      isHttpUrl (cell_sval v) = true ∨
        (containsSub "رابط" colname = true ∧ cell_sval v ≠ "") := by
    simp [Bool.or_eq_true, Bool.and_eq_true, decide_eq_true_iff]
  cases hB : (isHttpUrl (cell_sval v) ||
      (containsSub "رابط" colname && decide (cell_sval v ≠ ""))) with
  | false =>
    rw [← hcond, hB]
    constructor
    · simp only [write_excel_cell, hB]
      constructor
      · intro h
        cases dtype <;> cases v <;> simp_all [isna, cell_sval]
      · intro h
        exact absurd h (by simp)
    · simp only [pdf_cell, hB]
      constructor
      · intro h
        simp at h
      · intro h
        exact absurd h (by simp)
  | true =>
    rw [← hcond, hB]
    have hex : write_excel_cell dtype colname v = XlCell.url (cell_sval v) "فتح الرابط" := by
      simp only [write_excel_cell, hB, if_true]
    have hpd : pdf_cell sh colname v = PdfCellM.link (cell_sval v) (sh "فتح الرابط") := by
      simp only [pdf_cell, hB, if_true]
    exact ⟨⟨fun _ => rfl, fun _ => hex⟩, ⟨fun _ => rfl, fun _ => hpd⟩⟩

/-- C4 witness: a URL value in a "رابط" column yields the fixed-caption
clickable cell in the spreadsheet renderer. -/
theorem link_cell_iff_witness :
    write_excel_cell Dtype.object "رابط المستند" (Cell.str "https://example.com/x") =
      XlCell.url (cell_sval (Cell.str "https://example.com/x")) "فتح الرابط" :=
  (link_cell_iff (fun s => s) Dtype.object "رابط المستند"
    (Cell.str "https://example.com/x")).1.mpr (Or.inl (by decide))

/-! ## C6 -/

/-- C6 counterexample: the desired width of a hyperlink column is computed
from the raw cell text (the URL), not from the fixed "فتح الرابط" label —
for a 30-character URL under cap 150 the code yields 150 while the
spec-worded label-based rule yields 64. -/
theorem pdf_link_width_uses_raw_url :
    col_desired_width 150 "رابط" [Cell.str "https://example.com/abcdefghij"] = 150 ∧
    col_desired_width_spec_label 150 "رابط" [Cell.str "https://example.com/abcdefghij"] = 64 ∧
    (150 : ℚ) ≠ 64 := by
  refine ⟨?_, ?_, by norm_num⟩
  · have h1 : ("رابط" : String).length = 4 := rfl
    have h2 : cellsMaxLen [Cell.str "https://example.com/abcdefghij"] = 30 := rfl
    simp only [col_desired_width, h1, h2]
    norm_num [min_def, max_def]
  · have h0 : containsSub "رابط" "رابط" = true := by decide
    have h1 : ("رابط" : String).length = 4 := rfl
    have h2 : ("فتح الرابط" : String).length = 10 := rfl
    simp only [col_desired_width_spec_label, h0, if_true, h1, h2]
    norm_num [min_def, max_def]

/-- C6 (amended): desired column widths in the paginated renderer are
content-based — capped at the fixed maximum, depending on the column name
only through its length, and monotone in the content length — and
hyperlink columns are measured from their raw cell text like any other
column (`pdf_link_width_uses_raw_url`). -/
theorem col_desired_width_props (maxw : ℚ) (name : String) (cells : List Cell) :
    col_desired_width maxw name cells ≤ maxw ∧
    (∀ name2 : String, name2.length = name.length →
      col_desired_width maxw name2 cells = col_desired_width maxw name cells) ∧
    (∀ (name2 : String) (cells2 : List Cell),
      max name.length (cellsMaxLen cells) ≤ max name2.length (cellsMaxLen cells2) →
      col_desired_width maxw name cells ≤ col_desired_width maxw name2 cells2) := by
  refine ⟨min_le_right _ _, ?_, ?_⟩
  · intro name2 h
    simp [col_desired_width, h]
  · intro name2 cells2 h
    unfold col_desired_width
    apply min_le_min _ le_rfl
    apply mul_le_mul_of_nonneg_right _ (by norm_num)
    rw [← Nat.cast_max, ← Nat.cast_max]
    exact_mod_cast h

/-- C6 witness: the cap instantiated for a hyperlink column. -/
theorem col_desired_width_props_witness :
    col_desired_width 150 "رابط" [Cell.str "https://e.co"] ≤ 150 :=
  (col_desired_width_props 150 "رابط" [Cell.str "https://e.co"]).1

theorem plain_number_eq (y : Cell) (hy : y ≠ Cell.null) :
    plain_number_no_commas y =
      match parseFloatL (stripCommasWs (pyStr y)) with
      | none => pyStr y
      | some (m, e) =>
        let p := canonDec m e
        if p.2 = 0 then intStr p.1 else decPointStr p.1 p.2 := by
  cases y with
  | null => exact absurd rfl hy
  | num m e => rfl
  | str s => rfl

theorem mapOption_get {α β : Type} (f : α → Option β) :
    ∀ (l : List α) (out : List β), mapOption f l = some out →
      ∀ i a, l.get? i = some a → ∃ b, f a = some b ∧ out.get? i = some b := by
  intro l
  induction l with
  | nil =>
    intro out h i a ha
    simp at ha
  | cons x t ih =>
    intro out h i a ha
    simp only [mapOption] at h
    cases hfx : f x with
    | none => rw [hfx] at h; simp at h
    | some b =>
      rw [hfx] at h
      cases hmt : mapOption f t with
      | none => rw [hmt] at h; simp at h
      | some bs =>
        rw [hmt] at h
        simp only [Option.some.injEq] at h
        subst h
        cases i with
        | zero =>
          simp only [List.get?, Option.some.injEq] at ha
          subst ha
          exact ⟨b, hfx, rfl⟩
        | succ n =>
          simp only [List.get?] at ha ⊢
          exact ih bs hmt n a ha

/-! ## C5 -/

/-- C5: in the PDF numeric-formatting pass, a column whose normalized
name contains "شيك" or is listed as no-grouping is rendered cell-wise by
the plain formatter (whose numeric output never contains a thousands
separator, and which returns malformed strings verbatim); every other
numeric-dtype column is rendered with the grouped two-decimal format
(e.g. `1,500.50`), and non-numeric columns fall back to their verbatim
string form when a cell does not parse. -/
theorem format_numbers_spec (cols : List Col) (nc : List String)
    (out : List (String × List String))
    (hout : format_numbers_for_display cols nc = some out) :
    (∀ i c, cols.get? i = some c →
      ((containsSub "شيك" (normalize_name c.name) = true ∨
          (nc.map normalize_name).contains (normalize_name c.name) = true) →
        out.get? i = some (c.name, c.cells.map plain_number_no_commas)) ∧
      (containsSub "شيك" (normalize_name c.name) = false →
        (nc.map normalize_name).contains (normalize_name c.name) = false →
        c.dtype = Dtype.numeric →
        ∃ l, out.get? i = some (c.name, l) ∧ mapOption fmtNumericCell c.cells = some l) ∧
      (containsSub "شيك" (normalize_name c.name) = false →
        (nc.map normalize_name).contains (normalize_name c.name) = false →
        c.dtype ≠ Dtype.numeric →
        out.get? i = some (c.name, c.cells.map fmt_cell))) ∧
    (∀ m e, ',' ∉ (plain_number_no_commas (Cell.num m e)).data) ∧
    (∀ m e, fmtNumericCell (Cell.num m e) = some (pyFormatComma2f (decVal m e))) ∧
    pyFormatComma2f (decVal 15005 1) = "1,500.50" ∧
    (∀ s, parseFloatL (stripCommasWs s) = none →
      plain_number_no_commas (Cell.str s) = s) ∧
    (∀ s, parseFloatL (trimWs (s.data.filter (fun c => c ≠ ','))) = none →
      fmt_cell (Cell.str s) = s) := by
  refine ⟨?_, ?_, fun m e => rfl, ?_, ?_, ?_⟩
  · intro i c hc
    obtain ⟨b, hfc, hbi⟩ := mapOption_get (format_col (nc.map normalize_name)) cols out hout i c hc
    refine ⟨?_, ?_, ?_⟩
    · intro hflag
      have hcond : ((nc.map normalize_name).contains (normalize_name c.name) ||
          containsSub "شيك" (normalize_name c.name)) = true := by
        rcases hflag with h | h
        · rw [h, Bool.or_true]
        · rw [h, Bool.true_or]
      have hval : format_col (nc.map normalize_name) c =
          some (c.name, c.cells.map plain_number_no_commas) := by
        unfold format_col
        rw [if_pos hcond]
      rw [hval] at hfc
      rw [← Option.some.inj hfc] at hbi
      exact hbi
    · intro h1 h2 hdt
      have hcond : ¬ ((nc.map normalize_name).contains (normalize_name c.name) ||
          containsSub "شيك" (normalize_name c.name)) = true := by
        rw [h1, h2]
        simp
      have hfc' := hfc
      unfold format_col at hfc'
      rw [if_neg hcond, if_pos hdt] at hfc'
      cases hm : mapOption fmtNumericCell c.cells with
      | none => rw [hm] at hfc'; simp at hfc'
      | some l =>
        rw [hm] at hfc'
        simp only [Option.map_some'] at hfc'
        rw [← Option.some.inj hfc'] at hbi
        exact ⟨l, hbi, rfl⟩
    · intro h1 h2 hdt
      have hcond : ¬ ((nc.map normalize_name).contains (normalize_name c.name) ||
          containsSub "شيك" (normalize_name c.name)) = true := by
        rw [h1, h2]
        simp
      have hfc' := hfc
      unfold format_col at hfc'
      rw [if_neg hcond, if_neg hdt] at hfc'
      rw [← Option.some.inj hfc'] at hbi
      exact hbi
  · intro m e
    have heq := plain_number_eq (Cell.num m e) (by simp)
    cases hp : parseFloatL (stripCommasWs (pyStr (Cell.num m e))) with
    | none =>
      rw [hp] at heq
      rw [heq]
      exact pyStr_num_no_comma m e
    | some p =>
      obtain ⟨m2, e2⟩ := p
      rw [hp] at heq
      rw [heq]
      show ',' ∉ ((if (canonDec m2 e2).2 = 0 then intStr (canonDec m2 e2).1
          else decPointStr (canonDec m2 e2).1 (canonDec m2 e2).2)).data
      by_cases hz : (canonDec m2 e2).2 = 0
      · rw [if_pos hz]; exact intStr_no_comma _
      · rw [if_neg hz]; exact decPointStr_no_comma _ _
  · have hx : decVal 15005 1 * 100 = (150050 : ℚ) := by norm_num [decVal]
    have hfl : ⌊decVal 15005 1 * 100⌋ = 150050 := by
      rw [hx]
      norm_num
    have h1 : round2 (decVal 15005 1) = 150050 := by
      simp only [round2, hfl, hx]
      norm_num
    simp only [pyFormatComma2f, h1]
    rw [if_neg (by norm_num [decVal])]
    decide
  · intro s hp
    have hp' : parseFloatL (stripCommasWs (pyStr (Cell.str s))) = none := hp
    have heq := plain_number_eq (Cell.str s) (by simp)
    rw [hp'] at heq
    exact heq
  · intro s hp
    show (if (trimWs s.data).getLast? = some '%' then s
        else match parseFloatL (trimWs (s.data.filter (fun c => c ≠ ','))) with
          | some (m, e) => pyFormatComma2f (decVal m e)
          | none => s) = s
    by_cases hpc : (trimWs s.data).getLast? = some '%'
    · rw [if_pos hpc]
    · rw [if_neg hpc, hp]

/-- C5 witness: a two-column table with a check-number column and an
ordinary numeric column, formatted for the PDF path. -/
theorem format_numbers_spec_witness :
    format_numbers_for_display
        [⟨"رقم الشيك", Dtype.numeric, [Cell.num 123456 0]⟩,
         ⟨"المبلغ", Dtype.numeric, [Cell.num 15005 1]⟩] [] =
      some [("رقم الشيك", ["123456"]), ("المبلغ", ["1,500.50"])] := by
  have hgrp : pyFormatComma2f (decVal 15005 1) = "1,500.50" :=
    (format_numbers_spec [] [] [] rfl).2.2.2.1
  have h1 : format_col [] ⟨"رقم الشيك", Dtype.numeric, [Cell.num 123456 0]⟩ =
      some ("رقم الشيك", ["123456"]) := by decide
  have h2 : format_col [] ⟨"المبلغ", Dtype.numeric, [Cell.num 15005 1]⟩ =
      some ("المبلغ", ["1,500.50"]) := by
    unfold format_col
    rw [if_neg (by decide), if_pos rfl]
    show (mapOption fmtNumericCell [Cell.num 15005 1]).map (fun l => ("المبلغ", l)) = _
    have hm : mapOption fmtNumericCell [Cell.num 15005 1] = some ["1,500.50"] := by
      simp only [mapOption, fmtNumericCell, hgrp]
    rw [hm]
    rfl
  show mapOption (format_col (List.map normalize_name [])) _ = _
  simp only [List.map_nil, mapOption, h1, h2]

/-! ## C10 -/

/-- C10: the plain-number formatter maps null to the empty string; when
the comma-stripped string form of the input parses as a number, an
integral value renders as that integer's plain digit string (no
separators, no decimal point) and a non-integral value renders as the
canonical decimal of the same value with trailing zeros stripped (the
last character is a non-zero digit); an unparsable input is returned as
`str(x)` unchanged. -/
theorem plain_number_cases (x : Cell) :
    (x = Cell.null → plain_number_no_commas x = "") ∧
    (∀ m e, x ≠ Cell.null → parseFloatL (stripCommasWs (pyStr x)) = some (m, e) →
      ((10:ℤ) ^ e ∣ m →
        plain_number_no_commas x = intStr (m / 10 ^ e) ∧
        ',' ∉ (plain_number_no_commas x).data ∧
        '.' ∉ (plain_number_no_commas x).data) ∧
      (¬ (10:ℤ) ^ e ∣ m →
        0 < (canonDec m e).2 ∧
        ¬ (10:ℤ) ∣ (canonDec m e).1 ∧
        decVal (canonDec m e).1 (canonDec m e).2 = decVal m e ∧
        plain_number_no_commas x = decPointStr (canonDec m e).1 (canonDec m e).2 ∧
        (plain_number_no_commas x).data.getLast? ≠ some '0' ∧
        (plain_number_no_commas x).data.getLast? ≠ some '.' ∧
        ',' ∉ (plain_number_no_commas x).data)) ∧
    (x ≠ Cell.null → parseFloatL (stripCommasWs (pyStr x)) = none →
      plain_number_no_commas x = pyStr x) := by
  refine ⟨fun hnull => by rw [hnull]; rfl, fun m e hx hparse => ?_, fun hx hparse => ?_⟩
  · have heq := plain_number_eq x hx
    rw [hparse] at heq
    constructor
    · intro hdvd
      have hz : (canonDec m e).2 = 0 := (canonDec_snd_zero_iff e m).mpr hdvd
      have hplain : plain_number_no_commas x = intStr (m / 10 ^ e) := by
        rw [heq]
        show (if (canonDec m e).2 = 0 then intStr (canonDec m e).1
            else decPointStr (canonDec m e).1 (canonDec m e).2) = _
        rw [if_pos hz, canonDec_fst_int e m hdvd]
      refine ⟨hplain, ?_, ?_⟩
      · rw [hplain]; exact intStr_no_comma _
      · rw [hplain]; exact intStr_no_dot _
    · intro hdvd
      have hz : (canonDec m e).2 ≠ 0 := fun h => hdvd ((canonDec_snd_zero_iff e m).mp h)
      have hpos : 0 < (canonDec m e).2 := Nat.pos_of_ne_zero hz
      have hplain : plain_number_no_commas x =
          decPointStr (canonDec m e).1 (canonDec m e).2 := by
        rw [heq]
        show (if (canonDec m e).2 = 0 then intStr (canonDec m e).1
            else decPointStr (canonDec m e).1 (canonDec m e).2) = _
        rw [if_neg hz]
      have hnd : ¬ (10:ℤ) ∣ (canonDec m e).1 := canonDec_fst_not_dvd e m hz
      have hmod : (canonDec m e).1.natAbs % 10 ≠ 0 := by
        intro h0
        apply hnd
        have h10 : (10 : ℕ) ∣ (canonDec m e).1.natAbs := Nat.dvd_of_mod_eq_zero h0
        have : ((10:ℤ).natAbs : ℕ) ∣ (canonDec m e).1.natAbs := h10
        exact Int.natAbs_dvd_natAbs.mp this
      have hlast : (plain_number_no_commas x).data.getLast? =
          some (digitCh ((canonDec m e).1.natAbs % 10)) := by
        rw [hplain]
        exact decPointStr_getLast _ _ hpos
      have hdlt : (canonDec m e).1.natAbs % 10 < 10 := Nat.mod_lt _ (by omega)
      refine ⟨hpos, hnd, canonDec_val e m, hplain, ?_, ?_, ?_⟩
      · rw [hlast]
        intro h
        have h0 := Option.some.inj h
        exact (digitCh_facts _ hdlt).2.2 hmod h0
      · rw [hlast]
        intro h
        have h0 := Option.some.inj h
        exact (digitCh_facts _ hdlt).2.1 h0
      · rw [hplain]
        exact decPointStr_no_comma _ _
  · have heq := plain_number_eq x hx
    rw [hparse] at heq
    exact heq

/-- C10 witness: `"1,500.50"` parses to `150050 / 10^2`, a non-integral
value, and is rendered with separators removed and the trailing zero
stripped. -/
theorem plain_number_cases_witness :
    plain_number_no_commas (Cell.str "1,500.50") = "1500.5" := by
  have h := ((plain_number_cases (Cell.str "1,500.50")).2.1 150050 2 (by simp)
    (by decide)).2 (by decide)
  rw [h.2.2.2.1]
  decide

/-! ## C9: CSV round-trip lemmas -/

theorem any_eq_false_forall (p : Char → Bool) (l : List Char) (h : l.any p = false) :
    ∀ x ∈ l, p x = false := by
  intro x hx
  by_contra hpx
  have hpx' : p x = true := by
    cases hpe : p x
    · exact absurd hpe hpx
    · rfl
  have : l.any p = true := List.any_eq_true.mpr ⟨x, hx, hpx'⟩
  rw [h] at this
  exact Bool.false_ne_true this

theorem takeWhile_app (p : Char → Bool) :
    ∀ (s rest : List Char), (∀ c ∈ s, p c = true) →
      (s ++ rest).takeWhile p = s ++ rest.takeWhile p := by
  intro s
  induction s with
  | nil => intro rest _; rfl
  | cons a t ih =>
    intro rest h
    rw [List.cons_append, List.takeWhile_cons, if_pos (h a (List.mem_cons_self a t)),
      ih rest (fun c hc => h c (List.mem_cons_of_mem a hc))]
    rfl

theorem dropWhile_app (p : Char → Bool) :
    ∀ (s rest : List Char), (∀ c ∈ s, p c = true) →
      (s ++ rest).dropWhile p = rest.dropWhile p := by
  intro s
  induction s with
  | nil => intro rest _; rfl
  | cons a t ih =>
    intro rest h
    rw [List.cons_append, List.dropWhile_cons, if_pos (h a (List.mem_cons_self a t)),
      ih rest (fun c hc => h c (List.mem_cons_of_mem a hc))]

/-- A list is "separator-headed": empty, or starting with `,` or `\n`.
Parsing a rendered field must stop exactly there. -/
def sepHeaded (rest : List Char) : Prop :=
  rest = [] ∨ ∃ c t, rest = c :: t ∧ isSep c = true

theorem parseQuoted_escQ : ∀ (s rest : List Char), sepHeaded rest →
    parseQuoted (escQ s ++ '"' :: rest) = some (s, rest) := by
  intro s
  induction s with
  | nil =>
    intro rest hrest
    show parseQuoted ('"' :: rest) = some ([], rest)
    rw [parseQuoted.eq_def]
    dsimp only
    rw [if_pos rfl]
    rcases hrest with rfl | ⟨c, t, rfl, hc⟩
    · rfl
    · have hcs : c = ',' ∨ c = '\n' := by
        simpa [isSep, Bool.or_eq_true, decide_eq_true_iff] using hc
      rcases hcs with rfl | rfl <;> rfl
  | cons a s' ih =>
    intro rest hrest
    simp only [escQ]
    by_cases ha : a = '"'
    · rw [if_pos ha]
      subst ha
      show parseQuoted ('"' :: '"' :: (escQ s' ++ '"' :: rest)) = some ('"' :: s', rest)
      rw [parseQuoted.eq_def]
      dsimp only
      rw [if_pos rfl]
      show (parseQuoted (escQ s' ++ '"' :: rest)).map (fun p => ('"' :: p.1, p.2)) =
        some ('"' :: s', rest)
      rw [ih rest hrest]
      rfl
    · rw [if_neg ha]
      show parseQuoted (a :: (escQ s' ++ '"' :: rest)) = some (a :: s', rest)
      rw [parseQuoted.eq_def]
      dsimp only
      rw [if_neg ha]
      rw [ih rest hrest]
      rfl

theorem needsQuote_false_chars (s : List Char) (h : needsQuote s = false) :
    ∀ c ∈ s, (!isSep c) = true ∧ c ≠ '"' := by
  intro c hc
  have hv := any_eq_false_forall _ s h c hc
  simp only [Bool.or_eq_false_iff, decide_eq_false_iff_not] at hv
  obtain ⟨⟨⟨ha, hb⟩, hc2⟩, -⟩ := hv
  have hsep : isSep c = false := by
    simp only [isSep, Bool.or_eq_false_iff, decide_eq_false_iff_not]
    exact ⟨ha, hc2⟩
  refine ⟨?_, hb⟩
  rw [hsep]
  rfl

theorem takeWhile_sepHeaded (rest : List Char) (hrest : sepHeaded rest) :
    rest.takeWhile (fun x => !isSep x) = [] := by
  rcases hrest with rfl | ⟨c, t, rfl, hc⟩
  · rfl
  · rw [List.takeWhile_cons, if_neg]
    rw [hc]
    simp

theorem dropWhile_sepHeaded (rest : List Char) (hrest : sepHeaded rest) :
    rest.dropWhile (fun x => !isSep x) = rest := by
  rcases hrest with rfl | ⟨c, t, rfl, hc⟩
  · rfl
  · rw [List.dropWhile_cons, if_neg]
    rw [hc]
    simp

theorem parseField_render (s rest : List Char) (hrest : sepHeaded rest) :
    parseField (renderField s ++ rest) = some (s, rest) := by
  unfold renderField
  by_cases hq : needsQuote s = true
  · rw [if_pos hq]
    have hsh : ('"' :: (escQ s ++ ['"'])) ++ rest = '"' :: (escQ s ++ '"' :: rest) := by
      simp
    rw [hsh]
    show parseQuoted (escQ s ++ '"' :: rest) = some (s, rest)
    exact parseQuoted_escQ s rest hrest
  · have hq' : needsQuote s = false := by
      cases hn : needsQuote s
      · rfl
      · exact absurd hn hq
    rw [if_neg hq]
    have hchars := needsQuote_false_chars s hq'
    cases s with
    | nil =>
      rcases hrest with rfl | ⟨c, t, rfl, hc⟩
      · rfl
      · show parseField (c :: t) = some ([], c :: t)
        have hcq : c ≠ '"' := by
          have hcs : c = ',' ∨ c = '\n' := by
            simpa [isSep, Bool.or_eq_true, decide_eq_true_iff] using hc
          rcases hcs with rfl | rfl <;> decide
        rw [parseField.eq_def]
        dsimp only
        rw [if_neg hcq]
        rw [takeWhile_sepHeaded _ (Or.inr ⟨c, t, rfl, hc⟩),
          dropWhile_sepHeaded _ (Or.inr ⟨c, t, rfl, hc⟩)]
    | cons a s' =>
      have haq : a ≠ '"' := (hchars a (List.mem_cons_self a s')).2
      show parseField (a :: (s' ++ rest)) = some (a :: s', rest)
      rw [parseField.eq_def]
      dsimp only
      rw [if_neg haq]
      have htk : (a :: (s' ++ rest)).takeWhile (fun x => !isSep x) = a :: s' := by
        have : (a :: s') ++ rest = a :: (s' ++ rest) := rfl
        rw [← this, takeWhile_app _ _ _ (fun c hc => (hchars c hc).1),
          takeWhile_sepHeaded rest hrest, List.append_nil]
      have hdp : (a :: (s' ++ rest)).dropWhile (fun x => !isSep x) = rest := by
        have : (a :: s') ++ rest = a :: (s' ++ rest) := rfl
        rw [← this, dropWhile_app _ _ _ (fun c hc => (hchars c hc).1),
          dropWhile_sepHeaded rest hrest]
      rw [htk, hdp]

theorem parseRowF_render : ∀ (row : List (List Char)), row ≠ [] →
    ∀ (rest : List Char) (fuel : ℕ), row.length ≤ fuel →
    parseRowF fuel (renderRow row ++ '\n' :: rest) = some (row, '\n' :: rest) := by
  intro row
  induction row with
  | nil => intro h; exact absurd rfl h
  | cons f t ih =>
    intro _ rest fuel hfuel
    cases fuel with
    | zero => simp at hfuel
    | succ fu =>
      cases t with
      | nil =>
        show parseRowF (fu + 1) (renderField f ++ '\n' :: rest) = some ([f], '\n' :: rest)
        simp only [parseRowF]
        rw [parseField_render f ('\n' :: rest) (Or.inr ⟨'\n', rest, rfl, by decide⟩)]
        rfl
      | cons g t2 =>
        show parseRowF (fu + 1) ((renderField f ++ ',' :: renderRow (g :: t2)) ++ '\n' :: rest) =
          some (f :: g :: t2, '\n' :: rest)
        have hassoc : (renderField f ++ ',' :: renderRow (g :: t2)) ++ '\n' :: rest =
            renderField f ++ ',' :: (renderRow (g :: t2) ++ '\n' :: rest) := by
          simp
        rw [hassoc]
        simp only [parseRowF]
        rw [parseField_render f (',' :: (renderRow (g :: t2) ++ '\n' :: rest))
          (Or.inr ⟨',', _, rfl, by decide⟩)]
        have hlen : (g :: t2).length ≤ fu := by
          simp only [List.length_cons] at hfuel ⊢
          omega
        show (parseRowF fu (renderRow (g :: t2) ++ '\n' :: rest)).map
            (fun p => (f :: p.1, p.2)) = some (f :: g :: t2, '\n' :: rest)
        rw [ih (by simp) rest fu hlen]
        rfl

theorem renderRow_length (row : List (List Char)) : row.length ≤ (renderRow row).length + 1 := by
  induction row with
  | nil => simp [renderRow]
  | cons f t ih =>
    cases t with
    | nil => simp [renderRow]
    | cons g t2 =>
      show (f :: g :: t2).length ≤ (renderField f ++ ',' :: renderRow (g :: t2)).length + 1
      simp only [List.length_cons, List.length_append] at ih ⊢
      omega

theorem renderLines_length (ls : List (List (List Char))) :
    ls.length ≤ (renderLines ls).length := by
  induction ls with
  | nil => simp [renderLines]
  | cons r t ih =>
    show (r :: t).length ≤ (renderRow r ++ '\n' :: renderLines t).length
    simp only [List.length_cons, List.length_append] at ih ⊢
    omega

theorem parseLinesF_render : ∀ (ls : List (List (List Char))), (∀ r ∈ ls, r ≠ []) →
    ∀ fuel, ls.length ≤ fuel → parseLinesF fuel (renderLines ls) = some ls := by
  intro ls
  induction ls with
  | nil =>
    intro _ fuel _
    cases fuel <;> rfl
  | cons r t ih =>
    intro hne fuel hf
    cases fuel with
    | zero => simp at hf
    | succ fu =>
      obtain ⟨c, cs, hcs⟩ : ∃ c cs, renderRow r ++ '\n' :: renderLines t = c :: cs := by
        cases hrr : renderRow r with
        | nil => exact ⟨'\n', renderLines t, by simp [hrr]⟩
        | cons a b => exact ⟨a, b ++ '\n' :: renderLines t, by simp [hrr]⟩
      show parseLinesF (fu + 1) (renderRow r ++ '\n' :: renderLines t) = some (r :: t)
      rw [hcs]
      simp only [parseLinesF]
      rw [← hcs]
      have hbound : r.length ≤ (renderRow r ++ '\n' :: renderLines t).length + 1 := by
        have h1 := renderRow_length r
        simp only [List.length_append, List.length_cons]
        omega
      rw [parseRowF_render r (hne r (List.mem_cons_self r t)) (renderLines t) _ hbound]
      have hlen : t.length ≤ fu := by
        simp only [List.length_cons] at hf
        omega
      show (parseLinesF fu (renderLines t)).map (fun x => r :: x) = some (r :: t)
      rw [ih (fun x hx => hne x (List.mem_cons_of_mem r hx)) fu hlen]
      rfl

/-! ## C9 -/

/-- C9: rendering a text-only table to the flat delimited format (UTF-8
byte-order mark, comma separation, one newline-terminated record per
row, minimal quoting) and parsing the result back reproduces the column
names and the row values exactly, apart from the leading byte-order
mark. -/
theorem make_csv_roundtrip (cols : List Col) (hne : cols ≠ [])
    (htext : ∀ c ∈ cols, ∀ v ∈ c.cells, ∃ s, v = Cell.str s) :
    csvParse (make_csv_utf8 cols) =
      some (cols.map (fun c => c.name),
        (List.range (numRows cols)).map (fun i =>
          cols.map (fun c => csvCellStr (c.cells.getD i Cell.null)))) := by
  have hnerows : ∀ r ∈ (tableStrings cols).map (fun r => r.map String.data), r ≠ [] := by
    intro r hr
    rcases List.mem_map.mp hr with ⟨row, hrow, rfl⟩
    have hr_len : row.length = cols.length := by
      unfold tableStrings at hrow
      rcases List.mem_cons.mp hrow with rfl | h2
      · simp
      · rcases List.mem_map.mp h2 with ⟨i, _, rfl⟩
        simp
    intro hnil
    rw [List.map_eq_nil] at hnil
    rw [hnil] at hr_len
    exact hne (List.length_eq_zero.mp hr_len.symm)
  unfold csvParse make_csv_utf8
  simp only [data_mk]
  rw [parseLinesF_render ((tableStrings cols).map (fun r => r.map String.data)) hnerows _
    (by
      have := renderLines_length ((tableStrings cols).map (fun r => r.map String.data))
      simp only [List.length_map] at this ⊢
      omega)]
  have hmk : ((tableStrings cols).map (fun r => r.map String.data)).map
      (fun r => r.map String.mk) = tableStrings cols := by
    rw [List.map_map]
    have : ((fun r : List (List Char) => r.map String.mk) ∘
        fun r : List String => r.map String.data) = fun r : List String => r := by
      funext r
      simp only [Function.comp, List.map_map]
      have h2 : (String.mk ∘ String.data) = fun s : String => s := by
        funext s
        exact mk_data s
      rw [h2, List.map_id']
    rw [this, List.map_id']
  simp only [Option.some_bind]
  rw [hmk]
  rfl

/-- C9 witness: a concrete two-column, one-row text table (with a comma
inside one value) round-trips through the CSV path. -/
theorem make_csv_roundtrip_witness :
    csvParse (make_csv_utf8
        [⟨"الاسم", Dtype.object, [Cell.str "أحمد"]⟩,
         ⟨"ملاحظة", Dtype.object, [Cell.str "a,b"]⟩]) =
      some (["الاسم", "ملاحظة"], [["أحمد", "a,b"]]) := by
  have h := make_csv_roundtrip
    [⟨"الاسم", Dtype.object, [Cell.str "أحمد"]⟩,
     ⟨"ملاحظة", Dtype.object, [Cell.str "a,b"]⟩]
    (by simp)
    (by
      intro c hc v hv
      rcases List.mem_pair.mp hc with rfl | rfl <;>
        simp only [List.mem_singleton] at hv <;>
        exact ⟨_, hv⟩)
  rw [h]
  rfl

end HGAD
